import Mathlib

/-!
# Verification of the `tdx` call-argument resolver

Shallow embedding of the two argument-resolution implementations of the
`stroxler/tdx` repository:

* `tdx/inspectcall.py` — `callargs_from_argspec`, `get_signature`,
  `_get_arguments_extra_positional`, `_get_arguments_no_extra_positional`;
* `tdxutil/reflection.py` — `get_arguments`, `get_arguments_with_varargs`,
  `get_arguments_no_varargs`.

Python values are modelled by the inductive type `Value`; Python dicts by
association lists (`List (String × Value)`) with insert-or-update
(`dictInsert`, mirroring `d[k] = v`) and first-occurrence lookup
(`dictLookup`, mirroring `d[k]` / `k in d`).  Operations of the source that
can raise (list indexing, dict subscription) are embedded through `Option`:
a `none` result marks a Python exception.
-/

set_option autoImplicit false

/-- A Python value, as far as the resolver inspects it: opaque data (`atom`),
strings (sentinels are formatted strings), tuples, lists and string-keyed
dicts. -/
inductive Value where
  | atom : Nat → Value
  | str : String → Value
  | vtuple : List Value → Value
  | vlist : List Value → Value
  | vdict : List (String × Value) → Value
deriving Repr

/-- A Python dict with string keys, as an insertion-ordered association
list. -/
abbrev Dict := List (String × Value)

/-- `d[k]` as a total lookup: the value at the first occurrence of `k`. -/
def dictLookup (d : Dict) (k : String) : Option Value :=
  match d with
  | [] => none
  | (k', v) :: rest => if k' = k then some v else dictLookup rest k

/-- `k in d` for a Python dict. -/
def dictContains (d : Dict) (k : String) : Bool :=
  (dictLookup d k).isSome

/-- `d[k] = v` for a Python dict: replace the value at an existing key in
place, otherwise append the new entry. -/
def dictInsert (d : Dict) (k : String) (v : Value) : Dict :=
  match d with
  | [] => [(k, v)]
  | (k', v') :: rest =>
    if k' = k then (k, v) :: rest else (k', v') :: dictInsert rest k v

/-- The keys of a dict, in order. -/
def dictKeys (d : Dict) : List String :=
  d.map Prod.fst

/-- A `for name, value in pairs: arguments[name] = value` loop. -/
def updateAll (acc : Dict) (pairs : List (String × Value)) : Dict :=
  pairs.foldl (fun d p => dictInsert d p.1 p.2) acc

/-- The result of `inspect.getargspec`: regular argument names, the optional
`*varargs` name, the optional `**kwargs` name (field `keywords`), and the
defaults tuple, which Python reports as `None` when absent. -/
structure ArgSpec where
  args : List String
  varargs : Option String
  keywords : Option String
  defaults : Option (List Value)

/-- `'__missing_argument_{}__'.format(name)` — the sentinel both
implementations store for an unresolvable required parameter. -/
def missingArgument (name : String) : Value :=
  Value.str ("__missing_argument_" ++ name ++ "__")

/-- Python slice `l[start:stop]` for step 1, with a possibly negative `stop`
(as in `f_args[n_pos_arg:-len(f_defaults)]`).  Negative `stop` counts from
the end and clamps at `0`; note `-0 == 0`, so a zero-length defaults list
gives the slice `l[start:0]`, which is empty. -/
def pySlice (l : List String) (start : Nat) (stop : Int) : List String :=
  let stopIdx : Nat :=
    if stop < 0 then ((l.length : Int) + stop).toNat else min stop.toNat l.length
  (l.take stopIdx).drop start

/-- The `arguments = {}; if f_varargs is not None: arguments[f_varargs] = ()`
preamble of `_get_arguments_no_extra_positional`. -/
def varargsEmptyTuple (fVarargs : Option String) : Dict :=
  match fVarargs with
  | some v => [(v, Value.vtuple [])]
  | none => []

/-- The `arguments = {}; if f_varargs is not None: arguments[f_varargs] = []`
preamble of `get_arguments_no_varargs`. -/
def varargsEmptyList (fVarargs : Option String) : Dict :=
  match fVarargs with
  | some v => [(v, Value.vlist [])]
  | none => []

namespace Inspectcall

/-- `tdx/inspectcall.py`, `get_signature`: destructure an argspec,
normalising `defaults=None` to the empty list. -/
def get_signature (spec : ArgSpec) :
    List String × Option String × Option String × List Value :=
  (spec.args, spec.varargs, spec.keywords,
    match spec.defaults with
    | none => []
    | some d => d)

/-- `tdx/inspectcall.py`, `_get_arguments_extra_positional`: the branch for
calls with more positional arguments than declared parameters.  `call_args`
is a tuple here (it reaches the function as `*call_args`), so the leftover
tail is a tuple. -/
def get_arguments_extra_positional (callArgs : List Value) (callKwargs : Dict)
    (fArgs : List String) (fVarargs fKwargs : Option String) : Dict :=
  let arguments := updateAll [] (List.zip fArgs callArgs)
  let arguments :=
    match fVarargs with
    | some v => dictInsert arguments v (Value.vtuple (callArgs.drop fArgs.length))
    | none => arguments
  match fKwargs with
  | some w => dictInsert arguments w (Value.vdict callKwargs)
  | none => arguments

/-- The body of the `for i, name in enumerate(f_args)` loop of
`_get_arguments_no_extra_positional`: the resolved value of the parameter
`name` at index `i`.  List indexing is `Option`-valued; the source computes
`idx_in_defaults = i - n_no_defaults` in `int` arithmetic, hence `Int`
here. -/
def resolveParam (callArgs : List Value) (callKwargs : Dict)
    (fDefaults : List Value) (nNoDefaults : Int) (i : Nat) (name : String) :
    Option Value :=
  if i < callArgs.length then
    callArgs.get? i
  else if dictContains callKwargs name then
    dictLookup callKwargs name
  else if 0 ≤ (i : Int) - nNoDefaults then
    fDefaults.get? ((i : Int) - nNoDefaults).toNat
  else
    some (missingArgument name)

/-- The `for i, name in enumerate(f_args)` loop itself, threading the
`arguments` dict and the running index. -/
def resolveParams (callArgs : List Value) (callKwargs : Dict)
    (fDefaults : List Value) (nNoDefaults : Int) :
    Nat → List String → Dict → Option Dict
  | _, [], acc => some acc
  | i, name :: rest, acc =>
    match resolveParam callArgs callKwargs fDefaults nNoDefaults i name with
    | none => none
    | some v =>
      resolveParams callArgs callKwargs fDefaults nNoDefaults
        (i + 1) rest (dictInsert acc name v)

/-- `tdx/inspectcall.py`, `_get_arguments_no_extra_positional`: the branch
for calls with no excess positional arguments.  A declared varargs slot is
pre-seeded with the empty tuple `()`; the final step sets the `**kwargs`
slot to `keyword_args` filtered to keys outside `f_args`. -/
def get_arguments_no_extra_positional (callArgs : List Value) (callKwargs : Dict)
    (fArgs : List String) (fDefaults : List Value)
    (fVarargs fKwargs : Option String) : Option Dict :=
  let init : Dict := varargsEmptyTuple fVarargs
  let nNoDefaults : Int := (fArgs.length : Int) - (fDefaults.length : Int)
  match resolveParams callArgs callKwargs fDefaults nNoDefaults 0 fArgs init with
  | none => none
  | some arguments =>
    match fKwargs with
    | some w =>
      some (dictInsert arguments w
        (Value.vdict (callKwargs.filter fun kv => !(fArgs.contains kv.1))))
    | none => some arguments

/-- `tdx/inspectcall.py`, `callargs_from_argspec`: dispatch on whether the
call has more positional arguments than declared parameters. -/
def callargs_from_argspec (spec : ArgSpec) (callArgs : List Value)
    (callKwargs : Dict) : Option Dict :=
  match get_signature spec with
  | (fArgs, fVarargs, fKwargs, fDefaults) =>
    if fArgs.length < callArgs.length then
      some (get_arguments_extra_positional callArgs callKwargs fArgs fVarargs fKwargs)
    else
      get_arguments_no_extra_positional callArgs callKwargs fArgs fDefaults fVarargs fKwargs

end Inspectcall

namespace Reflection

/-- `tdxutil/reflection.py`, `get_arguments_with_varargs`: identical to
`_get_arguments_extra_positional` except that `call_args` is a plain list
here, so the leftover tail is a list. -/
def get_arguments_with_varargs (callArgs : List Value) (callKwargs : Dict)
    (fArgs : List String) (fVarargs fKwargs : Option String) : Dict :=
  let arguments := updateAll [] (List.zip fArgs callArgs)
  let arguments :=
    match fVarargs with
    | some v => dictInsert arguments v (Value.vlist (callArgs.drop fArgs.length))
    | none => arguments
  match fKwargs with
  | some w => dictInsert arguments w (Value.vdict callKwargs)
  | none => arguments

/-- The `for name, default in zip(f_args[n_pos_arg:][::-1], f_defaults[::-1])`
loop: keyword value if present, else the default. -/
def assignDefaulted (callKwargs : Dict) :
    Dict → List (String × Value) → Option Dict
  | acc, [] => some acc
  | acc, (name, default) :: rest =>
    if dictContains callKwargs name then
      match dictLookup callKwargs name with
      | some v => assignDefaulted callKwargs (dictInsert acc name v) rest
      | none => none
    else
      assignDefaulted callKwargs (dictInsert acc name default) rest

/-- The `for name in f_args[n_pos_arg:-len(f_defaults)]` loop: keyword value
if present, else the missing-argument sentinel. -/
def assignRequired (callKwargs : Dict) :
    Dict → List String → Option Dict
  | acc, [] => some acc
  | acc, name :: rest =>
    if dictContains callKwargs name then
      match dictLookup callKwargs name with
      | some v => assignRequired callKwargs (dictInsert acc name v) rest
      | none => none
    else
      assignRequired callKwargs (dictInsert acc name (missingArgument name)) rest

/-- `tdxutil/reflection.py`, `get_arguments_no_varargs`.  A declared varargs
slot is pre-seeded with the empty list `[]`; positionals are zipped in; the
defaults window is walked right-aligned; the remaining required parameters
come from the Python slice `f_args[n_pos_arg:-len(f_defaults)]` — which is
empty whenever `f_defaults` is empty, because `-0 == 0`. -/
def get_arguments_no_varargs (callArgs : List Value) (callKwargs : Dict)
    (fArgs : List String) (fDefaults : List Value)
    (fVarargs fKwargs : Option String) : Option Dict :=
  let init : Dict := varargsEmptyList fVarargs
  let nPos := callArgs.length
  let arguments := updateAll init (List.zip fArgs callArgs)
  match assignDefaulted callKwargs arguments
      (List.zip ((fArgs.drop nPos).reverse) fDefaults.reverse) with
  | none => none
  | some arguments =>
    match assignRequired callKwargs arguments
        (pySlice fArgs nPos (-(fDefaults.length : Int))) with
    | none => none
    | some arguments =>
      match fKwargs with
      | some w =>
        some (dictInsert arguments w
          (Value.vdict (callKwargs.filter fun kv => !(fArgs.contains kv.1))))
      | none => some arguments

/-- `tdxutil/reflection.py`, `get_arguments`: dispatch on the branch; the
argspec's raw `defaults` field is handed to `get_arguments_no_varargs`,
whose first use of it (`f_defaults[::-1]`) raises a `TypeError` when it is
`None` — embedded as a `none` result. -/
def get_arguments (spec : ArgSpec) (callArgs : List Value) (callKwargs : Dict) :
    Option Dict :=
  if spec.args.length < callArgs.length then
    some (get_arguments_with_varargs callArgs callKwargs spec.args spec.varargs spec.keywords)
  else
    match spec.defaults with
    | none => none
    | some fDefaults =>
      get_arguments_no_varargs callArgs callKwargs spec.args fDefaults spec.varargs spec.keywords

end Reflection

/-! ## Dictionary lemmas -/

theorem dictLookup_insert_self (d : Dict) (k : String) (v : Value) :
    dictLookup (dictInsert d k v) k = some v := by
  induction d with
  | nil => simp [dictInsert, dictLookup]
  | cons p rest ih =>
    by_cases h : p.1 = k
    · simp [dictInsert, dictLookup, h]
    · simp [dictInsert, dictLookup, h, ih]

theorem dictLookup_insert_ne (d : Dict) (k k' : String) (v : Value)
    (h : k ≠ k') : dictLookup (dictInsert d k v) k' = dictLookup d k' := by
  induction d with
  | nil => simp [dictInsert, dictLookup, h]
  | cons p rest ih =>
    by_cases hp : p.1 = k
    · simp only [dictInsert, hp, if_pos rfl, dictLookup, h, if_neg h]
      simp [dictLookup, hp]
    · simp [dictInsert, dictLookup, hp, ih]

theorem dictKeys_append (a b : Dict) :
    dictKeys (a ++ b) = dictKeys a ++ dictKeys b := by
  simp [dictKeys]

theorem dictInsert_absent (d : Dict) (k : String) (v : Value)
    (h : k ∉ dictKeys d) : dictInsert d k v = d ++ [(k, v)] := by
  induction d with
  | nil => simp [dictInsert]
  | cons p rest ih =>
    obtain ⟨k', v'⟩ := p
    simp only [dictKeys, List.map_cons, List.mem_cons] at h
    push_neg at h
    have hne : k' ≠ k := fun he => h.1 he.symm
    simp only [dictInsert, if_neg hne, List.cons_append, List.cons.injEq,
      true_and]
    exact ih (by simpa [dictKeys] using h.2)

theorem mem_dictKeys_insert (d : Dict) (k : String) (v : Value) (x : String)
    (h : x ∈ dictKeys (dictInsert d k v)) : x ∈ dictKeys d ∨ x = k := by
  induction d with
  | nil => simpa [dictInsert, dictKeys] using h
  | cons p rest ih =>
    obtain ⟨a, b⟩ := p
    by_cases hp : a = k
    · rw [show dictInsert ((a, b) :: rest) k v = (k, v) :: rest from by
        simp [dictInsert, hp]] at h
      simp only [dictKeys, List.map_cons, List.mem_cons] at h ⊢
      rcases h with h | h
      · exact Or.inr h
      · exact Or.inl (Or.inr h)
    · rw [show dictInsert ((a, b) :: rest) k v = (a, b) :: dictInsert rest k v from by
        simp [dictInsert, hp]] at h
      simp only [dictKeys, List.map_cons, List.mem_cons] at h ⊢
      rcases h with h | h
      · exact Or.inl (Or.inl h)
      · rcases ih h with h1 | h1
        · exact Or.inl (Or.inr h1)
        · exact Or.inr h1

theorem dictLookup_filter_not (d : Dict) (fArgs : List String) (name : String)
    (h : fArgs.contains name = true) :
    dictLookup (d.filter fun kv => !(fArgs.contains kv.1)) name = none := by
  induction d with
  | nil => simp [dictLookup]
  | cons p rest ih =>
    obtain ⟨a, b⟩ := p
    rw [List.filter_cons]
    by_cases hp : a ∈ fArgs
    · simpa [hp] using ih
    · have hne : a ≠ name := by
        intro he
        subst he
        exact hp (by simpa using h)
      have hcond : (!(fArgs.contains a)) = true := by simp [hp]
      rw [if_pos hcond, show dictLookup ((a, b) :: List.filter (fun kv => !(fArgs.contains kv.1)) rest) name = dictLookup (List.filter (fun kv => !(fArgs.contains kv.1)) rest) name from by simp [dictLookup, hne]]
      exact ih

/-! ## `updateAll` lemmas -/

theorem updateAll_fresh : ∀ (pairs : List (String × Value)) (acc : Dict),
    (pairs.map Prod.fst).Nodup →
    (∀ x ∈ pairs.map Prod.fst, x ∉ dictKeys acc) →
    updateAll acc pairs = acc ++ pairs := by
  intro pairs
  induction pairs with
  | nil => intro acc _ _; simp [updateAll]
  | cons p rest ih =>
    intro acc hnd hfresh
    simp only [List.map_cons, List.nodup_cons] at hnd
    have hp : p.1 ∉ dictKeys acc := hfresh p.1 (by simp)
    have step : dictInsert acc p.1 p.2 = acc ++ [p] := by
      simpa using dictInsert_absent acc p.1 p.2 hp
    have hrest : ∀ x ∈ rest.map Prod.fst, x ∉ dictKeys (acc ++ [p]) := by
      intro x hx
      rw [dictKeys_append]
      simp only [List.mem_append, not_or]
      refine ⟨hfresh x (by simp [hx]), ?_⟩
      simp only [dictKeys, List.map_cons, List.map_nil, List.mem_singleton]
      intro he
      exact hnd.1 (he ▸ hx)
    calc updateAll acc (p :: rest)
        = updateAll (acc ++ [p]) rest := by simp [updateAll, step]
      _ = (acc ++ [p]) ++ rest := ih (acc ++ [p]) hnd.2 hrest
      _ = acc ++ (p :: rest) := by simp

theorem mem_dictKeys_updateAll : ∀ (pairs : List (String × Value)) (acc : Dict)
    (x : String), x ∈ dictKeys (updateAll acc pairs) →
    x ∈ dictKeys acc ∨ x ∈ pairs.map Prod.fst := by
  intro pairs
  induction pairs with
  | nil => intro acc x h; exact Or.inl (by simpa [updateAll] using h)
  | cons p rest ih =>
    intro acc x h
    have h' : x ∈ dictKeys (updateAll (dictInsert acc p.1 p.2) rest) := by
      simpa [updateAll] using h
    rcases ih (dictInsert acc p.1 p.2) x h' with h'' | h''
    · rcases mem_dictKeys_insert acc p.1 p.2 x h'' with h3 | h3
      · exact Or.inl h3
      · exact Or.inr (by simp [h3])
    · exact Or.inr (by simp [h''])

/-! ## Totality of the inspectcall resolver -/

namespace Inspectcall

theorem resolveParams_cons (callArgs : List Value) (callKwargs : Dict)
    (fDefaults : List Value) (nNoDefaults : Int) (i : Nat) (name : String)
    (rest : List String) (acc : Dict) :
    resolveParams callArgs callKwargs fDefaults nNoDefaults i (name :: rest) acc =
      match resolveParam callArgs callKwargs fDefaults nNoDefaults i name with
      | none => none
      | some v =>
        resolveParams callArgs callKwargs fDefaults nNoDefaults
          (i + 1) rest (dictInsert acc name v) := rfl

theorem resolveParam_isSome (callArgs : List Value) (callKwargs : Dict)
    (fDefaults : List Value) (nNoDefaults : Int) (i : Nat) (name : String)
    (h : (i : Int) - nNoDefaults < (fDefaults.length : Int)) :
    (resolveParam callArgs callKwargs fDefaults nNoDefaults i name).isSome = true := by
  unfold resolveParam
  by_cases h1 : i < callArgs.length
  · rw [if_pos h1]
    exact Option.isSome_iff_exists.mpr ⟨_, List.get?_eq_get h1⟩
  · rw [if_neg h1]
    by_cases h2 : dictContains callKwargs name
    · rw [if_pos h2]
      exact h2
    · rw [if_neg h2]
      by_cases h3 : 0 ≤ (i : Int) - nNoDefaults
      · rw [if_pos h3]
        have hlt : ((i : Int) - nNoDefaults).toNat < fDefaults.length := by omega
        exact Option.isSome_iff_exists.mpr ⟨_, List.get?_eq_get hlt⟩
      · rw [if_neg h3]
        rfl

theorem resolveParams_isSome (callArgs : List Value) (callKwargs : Dict)
    (fDefaults : List Value) (nNoDefaults : Int) :
    ∀ (names : List String) (i : Nat) (acc : Dict),
    (i : Int) + names.length - nNoDefaults ≤ (fDefaults.length : Int) →
    (resolveParams callArgs callKwargs fDefaults nNoDefaults i names acc).isSome = true := by
  intro names
  induction names with
  | nil =>
    intro i acc _
    simp [resolveParams]
  | cons name rest ih =>
    intro i acc h
    have h1 : (i : Int) - nNoDefaults < (fDefaults.length : Int) := by
      simp only [List.length_cons] at h
      push_cast at h
      omega
    obtain ⟨v, hv⟩ := Option.isSome_iff_exists.mp
      (resolveParam_isSome callArgs callKwargs fDefaults nNoDefaults i name h1)
    rw [resolveParams_cons, hv]
    refine ih (i + 1) (dictInsert acc name v) ?_
    simp only [List.length_cons] at h
    push_cast at h ⊢
    omega

theorem no_extra_positional_isSome (callArgs : List Value) (callKwargs : Dict)
    (fArgs : List String) (fDefaults : List Value)
    (fVarargs fKwargs : Option String) :
    (get_arguments_no_extra_positional callArgs callKwargs fArgs fDefaults
      fVarargs fKwargs).isSome = true := by
  simp only [get_arguments_no_extra_positional]
  obtain ⟨res, hres⟩ := Option.isSome_iff_exists.mp
    (resolveParams_isSome callArgs callKwargs fDefaults
      ((fArgs.length : Int) - (fDefaults.length : Int)) fArgs 0
      (varargsEmptyTuple fVarargs)
      (by push_cast; omega))
  rw [hres]
  cases fKwargs <;> simp

theorem callargs_isSome (spec : ArgSpec) (callArgs : List Value)
    (callKwargs : Dict) :
    (callargs_from_argspec spec callArgs callKwargs).isSome = true := by
  unfold callargs_from_argspec get_signature
  by_cases h : spec.args.length < callArgs.length
  · simp [h]
  · simp [h, no_extra_positional_isSome]

end Inspectcall

/-! ## Totality of the two directly-invoked reflection loop helpers -/

namespace Reflection

theorem assignDefaulted_isSome (callKwargs : Dict) :
    ∀ (pairs : List (String × Value)) (acc : Dict),
    (assignDefaulted callKwargs acc pairs).isSome = true := by
  intro pairs
  induction pairs with
  | nil =>
    intro acc
    simp [assignDefaulted]
  | cons p rest ih =>
    intro acc
    obtain ⟨name, dflt⟩ := p
    by_cases h : dictContains callKwargs name
    · obtain ⟨v, hv⟩ := Option.isSome_iff_exists.mp h
      simp [assignDefaulted, h, hv, ih]
    · simp [assignDefaulted, h, ih]

theorem assignRequired_isSome (callKwargs : Dict) :
    ∀ (names : List String) (acc : Dict),
    (assignRequired callKwargs acc names).isSome = true := by
  intro names
  induction names with
  | nil =>
    intro acc
    simp [assignRequired]
  | cons name rest ih =>
    intro acc
    by_cases h : dictContains callKwargs name
    · obtain ⟨v, hv⟩ := Option.isSome_iff_exists.mp h
      simp [assignRequired, h, hv, ih]
    · simp [assignRequired, h, ih]

theorem no_varargs_isSome (callArgs : List Value) (callKwargs : Dict)
    (fArgs : List String) (fDefaults : List Value)
    (fVarargs fKwargs : Option String) :
    (get_arguments_no_varargs callArgs callKwargs fArgs fDefaults
      fVarargs fKwargs).isSome = true := by
  simp only [get_arguments_no_varargs]
  obtain ⟨d1, h1⟩ := Option.isSome_iff_exists.mp
    (assignDefaulted_isSome callKwargs
      (List.zip ((fArgs.drop callArgs.length).reverse) fDefaults.reverse)
      (updateAll (varargsEmptyList fVarargs) (List.zip fArgs callArgs)))
  rw [h1]
  obtain ⟨d2, h2⟩ := Option.isSome_iff_exists.mp
    (assignRequired_isSome callKwargs
      (pySlice fArgs callArgs.length (-(fDefaults.length : Int))) d1)
  cases fKwargs <;> simp [h2]

end Reflection

/-! ## Lookup characterisation of the inspectcall parameter loop -/

namespace Inspectcall

theorem resolveParams_lookup_notMem (callArgs : List Value) (callKwargs : Dict)
    (fDefaults : List Value) (nNoDefaults : Int) (name : String) :
    ∀ (names : List String) (i : Nat) (acc res : Dict),
    resolveParams callArgs callKwargs fDefaults nNoDefaults i names acc = some res →
    name ∉ names →
    dictLookup res name = dictLookup acc name := by
  intro names
  induction names with
  | nil =>
    intro i acc res h _
    simp only [resolveParams, Option.some.injEq] at h
    rw [h]
  | cons hd rest ih =>
    intro i acc res h hmem
    rw [resolveParams_cons] at h
    cases hv : resolveParam callArgs callKwargs fDefaults nNoDefaults i hd with
    | none =>
      rw [hv] at h
      exact absurd h (by simp)
    | some v =>
      rw [hv] at h
      have hne : hd ≠ name := fun he => hmem (by simp [he])
      rw [ih (i + 1) (dictInsert acc hd v) res h (fun hm => hmem (by simp [hm]))]
      exact dictLookup_insert_ne acc hd name v hne

theorem resolveParams_lookup (callArgs : List Value) (callKwargs : Dict)
    (fDefaults : List Value) (nNoDefaults : Int) :
    ∀ (names : List String) (i : Nat) (acc res : Dict) (j : Nat) (name : String),
    resolveParams callArgs callKwargs fDefaults nNoDefaults i names acc = some res →
    names.Nodup →
    names.get? j = some name →
    dictLookup res name =
      resolveParam callArgs callKwargs fDefaults nNoDefaults (i + j) name := by
  intro names
  induction names with
  | nil =>
    intro i acc res j name _ _ hj
    simp at hj
  | cons hd rest ih =>
    intro i acc res j name h hnd hj
    rw [resolveParams_cons] at h
    cases hv : resolveParam callArgs callKwargs fDefaults nNoDefaults i hd with
    | none =>
      rw [hv] at h
      exact absurd h (by simp)
    | some v =>
      rw [hv] at h
      cases j with
      | zero =>
        rw [List.get?_cons_zero, Option.some.injEq] at hj
        subst hj
        have hnot : hd ∉ rest := (List.nodup_cons.mp hnd).1
        rw [Nat.add_zero, hv,
          resolveParams_lookup_notMem callArgs callKwargs fDefaults nNoDefaults
            hd rest (i + 1) (dictInsert acc hd v) res h hnot]
        exact dictLookup_insert_self acc hd v
      | succ j' =>
        rw [List.get?_cons_succ] at hj
        rw [ih (i + 1) (dictInsert acc hd v) res j' name h
          (List.nodup_cons.mp hnd).2 hj]
        congr 1
        omega

theorem mem_dictKeys_resolveParams (callArgs : List Value) (callKwargs : Dict)
    (fDefaults : List Value) (nNoDefaults : Int) :
    ∀ (names : List String) (i : Nat) (acc res : Dict) (x : String),
    resolveParams callArgs callKwargs fDefaults nNoDefaults i names acc = some res →
    x ∈ dictKeys res → x ∈ dictKeys acc ∨ x ∈ names := by
  intro names
  induction names with
  | nil =>
    intro i acc res x h hx
    simp only [resolveParams, Option.some.injEq] at h
    exact Or.inl (h ▸ hx)
  | cons hd rest ih =>
    intro i acc res x h hx
    rw [resolveParams_cons] at h
    cases hv : resolveParam callArgs callKwargs fDefaults nNoDefaults i hd with
    | none =>
      rw [hv] at h
      exact absurd h (by simp)
    | some v =>
      rw [hv] at h
      rcases ih (i + 1) (dictInsert acc hd v) res x h hx with h1 | h1
      · rcases mem_dictKeys_insert acc hd v x h1 with h2 | h2
        · exact Or.inl h2
        · exact Or.inr (by simp [h2])
      · exact Or.inr (by simp [h1])

end Inspectcall

/-! ## Lookup in a zipped parameter/argument dict -/

theorem dictLookup_zip :
    ∀ (fArgs : List String) (callArgs : List Value) (i : Nat) (name : String),
    fArgs.Nodup → fArgs.get? i = some name → i < callArgs.length →
    dictLookup (List.zip fArgs callArgs) name = callArgs.get? i := by
  intro fArgs
  induction fArgs with
  | nil =>
    intro callArgs i name _ hj _
    simp at hj
  | cons hd rest ih =>
    intro callArgs i name hnd hj hlt
    cases callArgs with
    | nil => simp at hlt
    | cons a as =>
      cases i with
      | zero =>
        rw [List.get?_cons_zero, Option.some.injEq] at hj
        subst hj
        simp [dictLookup]
      | succ i' =>
        rw [List.get?_cons_succ] at hj
        have hmem : name ∈ rest := List.get?_mem hj
        have hne : hd ≠ name := fun he => (List.nodup_cons.mp hnd).1 (he ▸ hmem)
        simp only [List.zip_cons_cons, dictLookup, if_neg hne,
          List.length_cons, List.get?_cons_succ]
        exact ih as i' name (List.nodup_cons.mp hnd).2 hj (by simpa using hlt)

/-! ## Key-set lemmas for the reflection loops -/

namespace Reflection

theorem mem_dictKeys_assignDefaulted (callKwargs : Dict) :
    ∀ (pairs : List (String × Value)) (acc res : Dict) (x : String),
    assignDefaulted callKwargs acc pairs = some res →
    x ∈ dictKeys res → x ∈ dictKeys acc ∨ x ∈ pairs.map Prod.fst := by
  intro pairs
  induction pairs with
  | nil =>
    intro acc res x h hx
    simp only [assignDefaulted, Option.some.injEq] at h
    exact Or.inl (h ▸ hx)
  | cons p rest ih =>
    intro acc res x h hx
    obtain ⟨name, dflt⟩ := p
    by_cases hc : dictContains callKwargs name
    · obtain ⟨v, hv⟩ := Option.isSome_iff_exists.mp hc
      rw [show assignDefaulted callKwargs acc ((name, dflt) :: rest) =
          assignDefaulted callKwargs (dictInsert acc name v) rest from by
        simp [assignDefaulted, hc, hv]] at h
      rcases ih (dictInsert acc name v) res x h hx with h1 | h1
      · rcases mem_dictKeys_insert acc name v x h1 with h2 | h2
        · exact Or.inl h2
        · exact Or.inr (by simp [h2])
      · exact Or.inr (by simp [h1])
    · rw [show assignDefaulted callKwargs acc ((name, dflt) :: rest) =
          assignDefaulted callKwargs (dictInsert acc name dflt) rest from by
        simp [assignDefaulted, hc]] at h
      rcases ih (dictInsert acc name dflt) res x h hx with h1 | h1
      · rcases mem_dictKeys_insert acc name dflt x h1 with h2 | h2
        · exact Or.inl h2
        · exact Or.inr (by simp [h2])
      · exact Or.inr (by simp [h1])

theorem mem_dictKeys_assignRequired (callKwargs : Dict) :
    ∀ (names : List String) (acc res : Dict) (x : String),
    assignRequired callKwargs acc names = some res →
    x ∈ dictKeys res → x ∈ dictKeys acc ∨ x ∈ names := by
  intro names
  induction names with
  | nil =>
    intro acc res x h hx
    simp only [assignRequired, Option.some.injEq] at h
    exact Or.inl (h ▸ hx)
  | cons name rest ih =>
    intro acc res x h hx
    by_cases hc : dictContains callKwargs name
    · obtain ⟨v, hv⟩ := Option.isSome_iff_exists.mp hc
      rw [show assignRequired callKwargs acc (name :: rest) =
          assignRequired callKwargs (dictInsert acc name v) rest from by
        simp [assignRequired, hc, hv]] at h
      rcases ih (dictInsert acc name v) res x h hx with h1 | h1
      · rcases mem_dictKeys_insert acc name v x h1 with h2 | h2
        · exact Or.inl h2
        · exact Or.inr (by simp [h2])
      · exact Or.inr (by simp [h1])
    · rw [show assignRequired callKwargs acc (name :: rest) =
          assignRequired callKwargs (dictInsert acc name (missingArgument name)) rest from by
        simp [assignRequired, hc]] at h
      rcases ih (dictInsert acc name (missingArgument name)) res x h hx with h1 | h1
      · rcases mem_dictKeys_insert acc name (missingArgument name) x h1 with h2 | h2
        · exact Or.inl h2
        · exact Or.inr (by simp [h2])
      · exact Or.inr (by simp [h1])

end Reflection

/-! ## More dictionary lemmas -/

theorem dictLookup_append_of_isSome (d1 d2 : Dict) (k : String)
    (h : (dictLookup d1 k).isSome = true) :
    dictLookup (d1 ++ d2) k = dictLookup d1 k := by
  induction d1 with
  | nil => simp [dictLookup] at h
  | cons p rest ih =>
    obtain ⟨a, b⟩ := p
    by_cases ha : a = k
    · simp [dictLookup, ha]
    · simp only [dictLookup, if_neg ha] at h ⊢
      exact ih h

theorem mem_fst_zip (fArgs : List String) (callArgs : List Value) (x : String)
    (h : x ∈ (List.zip fArgs callArgs).map Prod.fst) : x ∈ fArgs := by
  obtain ⟨p, hp, he⟩ := List.mem_map.mp h
  exact he ▸ (List.of_mem_zip hp).1

/-! ## Exact shape of the excess-positional branch -/

namespace Inspectcall

theorem extra_positional_eq (callArgs : List Value) (callKwargs : Dict)
    (fArgs : List String) (fVarargs fKwargs : Option String)
    (hnd : fArgs.Nodup)
    (hv : ∀ v ∈ fVarargs, v ∉ fArgs)
    (hw : ∀ w ∈ fKwargs, w ∉ fArgs)
    (hvw : ∀ v ∈ fVarargs, ∀ w ∈ fKwargs, v ≠ w)
    (hlen : fArgs.length ≤ callArgs.length) :
    get_arguments_extra_positional callArgs callKwargs fArgs fVarargs fKwargs =
      List.zip fArgs callArgs
        ++ (fVarargs.map fun v =>
            (v, Value.vtuple (callArgs.drop fArgs.length))).toList
        ++ (fKwargs.map fun w => (w, Value.vdict callKwargs)).toList := by
  have hzipfst : (List.zip fArgs callArgs).map Prod.fst = fArgs :=
    List.map_fst_zip fArgs callArgs hlen
  have hbase : updateAll [] (List.zip fArgs callArgs) = List.zip fArgs callArgs := by
    have := updateAll_fresh (List.zip fArgs callArgs) []
      (by rw [hzipfst]; exact hnd)
      (by intro x _; simp [dictKeys])
    simpa using this
  have hkeyszip : dictKeys (List.zip fArgs callArgs) = fArgs := hzipfst
  cases fVarargs with
  | none =>
    cases fKwargs with
    | none => simp [get_arguments_extra_positional, hbase]
    | some w =>
      have hwf : w ∉ fArgs := hw w (by simp)
      have hstep : dictInsert (List.zip fArgs callArgs) w (Value.vdict callKwargs) =
          List.zip fArgs callArgs ++ [(w, Value.vdict callKwargs)] :=
        dictInsert_absent _ _ _ (by rw [hkeyszip]; exact hwf)
      simp [get_arguments_extra_positional, hbase, hstep]
  | some v =>
    have hvf : v ∉ fArgs := hv v (by simp)
    have hstep1 : dictInsert (List.zip fArgs callArgs) v
        (Value.vtuple (callArgs.drop fArgs.length)) =
        List.zip fArgs callArgs ++ [(v, Value.vtuple (callArgs.drop fArgs.length))] :=
      dictInsert_absent _ _ _ (by rw [hkeyszip]; exact hvf)
    cases fKwargs with
    | none => simp [get_arguments_extra_positional, hbase, hstep1]
    | some w =>
      have hwf : w ∉ fArgs := hw w (by simp)
      have hwv : v ≠ w := hvw v (by simp) w (by simp)
      have hstep2 : dictInsert
          (List.zip fArgs callArgs ++ [(v, Value.vtuple (callArgs.drop fArgs.length))])
          w (Value.vdict callKwargs) =
          (List.zip fArgs callArgs ++ [(v, Value.vtuple (callArgs.drop fArgs.length))])
            ++ [(w, Value.vdict callKwargs)] :=
        dictInsert_absent _ _ _ (by
          rw [dictKeys_append, hkeyszip]
          simp only [List.mem_append, not_or]
          refine ⟨hwf, ?_⟩
          simp only [dictKeys, List.map_cons, List.map_nil, List.mem_singleton]
          exact fun he => hwv he.symm)
      simp [get_arguments_extra_positional, hbase, hstep1, hstep2]

end Inspectcall

namespace Reflection

theorem with_varargs_eq (callArgs : List Value) (callKwargs : Dict)
    (fArgs : List String) (fVarargs fKwargs : Option String)
    (hnd : fArgs.Nodup)
    (hv : ∀ v ∈ fVarargs, v ∉ fArgs)
    (hw : ∀ w ∈ fKwargs, w ∉ fArgs)
    (hvw : ∀ v ∈ fVarargs, ∀ w ∈ fKwargs, v ≠ w)
    (hlen : fArgs.length ≤ callArgs.length) :
    get_arguments_with_varargs callArgs callKwargs fArgs fVarargs fKwargs =
      List.zip fArgs callArgs
        ++ (fVarargs.map fun v =>
            (v, Value.vlist (callArgs.drop fArgs.length))).toList
        ++ (fKwargs.map fun w => (w, Value.vdict callKwargs)).toList := by
  have hzipfst : (List.zip fArgs callArgs).map Prod.fst = fArgs :=
    List.map_fst_zip fArgs callArgs hlen
  have hbase : updateAll [] (List.zip fArgs callArgs) = List.zip fArgs callArgs := by
    have := updateAll_fresh (List.zip fArgs callArgs) []
      (by rw [hzipfst]; exact hnd)
      (by intro x _; simp [dictKeys])
    simpa using this
  have hkeyszip : dictKeys (List.zip fArgs callArgs) = fArgs := hzipfst
  cases fVarargs with
  | none =>
    cases fKwargs with
    | none => simp [get_arguments_with_varargs, hbase]
    | some w =>
      have hwf : w ∉ fArgs := hw w (by simp)
      have hstep : dictInsert (List.zip fArgs callArgs) w (Value.vdict callKwargs) =
          List.zip fArgs callArgs ++ [(w, Value.vdict callKwargs)] :=
        dictInsert_absent _ _ _ (by rw [hkeyszip]; exact hwf)
      simp [get_arguments_with_varargs, hbase, hstep]
  | some v =>
    have hvf : v ∉ fArgs := hv v (by simp)
    have hstep1 : dictInsert (List.zip fArgs callArgs) v
        (Value.vlist (callArgs.drop fArgs.length)) =
        List.zip fArgs callArgs ++ [(v, Value.vlist (callArgs.drop fArgs.length))] :=
      dictInsert_absent _ _ _ (by rw [hkeyszip]; exact hvf)
    cases fKwargs with
    | none => simp [get_arguments_with_varargs, hbase, hstep1]
    | some w =>
      have hwf : w ∉ fArgs := hw w (by simp)
      have hwv : v ≠ w := hvw v (by simp) w (by simp)
      have hstep2 : dictInsert
          (List.zip fArgs callArgs ++ [(v, Value.vlist (callArgs.drop fArgs.length))])
          w (Value.vdict callKwargs) =
          (List.zip fArgs callArgs ++ [(v, Value.vlist (callArgs.drop fArgs.length))])
            ++ [(w, Value.vdict callKwargs)] :=
        dictInsert_absent _ _ _ (by
          rw [dictKeys_append, hkeyszip]
          simp only [List.mem_append, not_or]
          refine ⟨hwf, ?_⟩
          simp only [dictKeys, List.map_cons, List.map_nil, List.mem_singleton]
          exact fun he => hwv he.symm)
      simp [get_arguments_with_varargs, hbase, hstep1, hstep2]

end Reflection

/-! ## Key sets of each branch function -/

namespace Inspectcall

theorem mem_dictKeys_extra_positional (callArgs : List Value) (callKwargs : Dict)
    (fArgs : List String) (fVarargs fKwargs : Option String) (x : String)
    (hx : x ∈ dictKeys (get_arguments_extra_positional callArgs callKwargs
      fArgs fVarargs fKwargs)) :
    x ∈ fArgs ∨ fVarargs = some x ∨ fKwargs = some x := by
  have base : ∀ y : String,
      y ∈ dictKeys (updateAll [] (List.zip fArgs callArgs)) → y ∈ fArgs := by
    intro y hy
    rcases mem_dictKeys_updateAll (List.zip fArgs callArgs) [] y hy with h | h
    · simp [dictKeys] at h
    · exact mem_fst_zip fArgs callArgs y h
  cases fVarargs with
  | none =>
    cases fKwargs with
    | none =>
      exact Or.inl (base x (by simpa [get_arguments_extra_positional] using hx))
    | some w =>
      simp only [get_arguments_extra_positional] at hx
      rcases mem_dictKeys_insert _ w (Value.vdict callKwargs) x hx with h | h
      · exact Or.inl (base x h)
      · exact Or.inr (Or.inr (by rw [h]))
  | some v =>
    cases fKwargs with
    | none =>
      simp only [get_arguments_extra_positional] at hx
      rcases mem_dictKeys_insert _ v
        (Value.vtuple (callArgs.drop fArgs.length)) x hx with h | h
      · exact Or.inl (base x h)
      · exact Or.inr (Or.inl (by rw [h]))
    | some w =>
      simp only [get_arguments_extra_positional] at hx
      rcases mem_dictKeys_insert _ w (Value.vdict callKwargs) x hx with h | h
      · rcases mem_dictKeys_insert _ v
          (Value.vtuple (callArgs.drop fArgs.length)) x h with h1 | h1
        · exact Or.inl (base x h1)
        · exact Or.inr (Or.inl (by rw [h1]))
      · exact Or.inr (Or.inr (by rw [h]))

theorem mem_dictKeys_no_extra_positional (callArgs : List Value)
    (callKwargs : Dict) (fArgs : List String) (fDefaults : List Value)
    (fVarargs fKwargs : Option String) (m : Dict) (x : String)
    (hm : get_arguments_no_extra_positional callArgs callKwargs fArgs fDefaults
      fVarargs fKwargs = some m)
    (hx : x ∈ dictKeys m) :
    x ∈ fArgs ∨ fVarargs = some x ∨ fKwargs = some x := by
  simp only [get_arguments_no_extra_positional] at hm
  obtain ⟨res, hres⟩ := Option.isSome_iff_exists.mp
    (resolveParams_isSome callArgs callKwargs fDefaults
      ((fArgs.length : Int) - (fDefaults.length : Int)) fArgs 0
      (varargsEmptyTuple fVarargs)
      (by push_cast; omega))
  rw [hres] at hm
  · have initKeys : ∀ y : String,
        y ∈ dictKeys (varargsEmptyTuple fVarargs) → fVarargs = some y := by
      intro y hy
      cases fVarargs with
      | none => simp [varargsEmptyTuple, dictKeys] at hy
      | some v =>
        simp only [varargsEmptyTuple, dictKeys, List.map_cons, List.map_nil,
          List.mem_singleton] at hy
        rw [hy]
    have resKeys : ∀ y : String, y ∈ dictKeys res →
        y ∈ fArgs ∨ fVarargs = some y := by
      intro y hy
      rcases mem_dictKeys_resolveParams callArgs callKwargs fDefaults
        ((fArgs.length : Int) - (fDefaults.length : Int)) fArgs 0 _ res y
        hres hy with h | h
      · exact Or.inr (initKeys y h)
      · exact Or.inl h
    cases fKwargs with
    | none =>
      rw [Option.some.injEq] at hm
      subst hm
      rcases resKeys x hx with h | h
      · exact Or.inl h
      · exact Or.inr (Or.inl h)
    | some w =>
      rw [Option.some.injEq] at hm
      subst hm
      rcases mem_dictKeys_insert res w
        (Value.vdict (callKwargs.filter fun kv => !(fArgs.contains kv.1)))
        x hx with h | h
      · rcases resKeys x h with h1 | h1
        · exact Or.inl h1
        · exact Or.inr (Or.inl h1)
      · exact Or.inr (Or.inr (by rw [h]))

end Inspectcall

namespace Reflection

theorem mem_dictKeys_with_varargs (callArgs : List Value) (callKwargs : Dict)
    (fArgs : List String) (fVarargs fKwargs : Option String) (x : String)
    (hx : x ∈ dictKeys (get_arguments_with_varargs callArgs callKwargs
      fArgs fVarargs fKwargs)) :
    x ∈ fArgs ∨ fVarargs = some x ∨ fKwargs = some x := by
  have base : ∀ y : String,
      y ∈ dictKeys (updateAll [] (List.zip fArgs callArgs)) → y ∈ fArgs := by
    intro y hy
    rcases mem_dictKeys_updateAll (List.zip fArgs callArgs) [] y hy with h | h
    · simp [dictKeys] at h
    · exact mem_fst_zip fArgs callArgs y h
  cases fVarargs with
  | none =>
    cases fKwargs with
    | none =>
      exact Or.inl (base x (by simpa [get_arguments_with_varargs] using hx))
    | some w =>
      simp only [get_arguments_with_varargs] at hx
      rcases mem_dictKeys_insert _ w (Value.vdict callKwargs) x hx with h | h
      · exact Or.inl (base x h)
      · exact Or.inr (Or.inr (by rw [h]))
  | some v =>
    cases fKwargs with
    | none =>
      simp only [get_arguments_with_varargs] at hx
      rcases mem_dictKeys_insert _ v
        (Value.vlist (callArgs.drop fArgs.length)) x hx with h | h
      · exact Or.inl (base x h)
      · exact Or.inr (Or.inl (by rw [h]))
    | some w =>
      simp only [get_arguments_with_varargs] at hx
      rcases mem_dictKeys_insert _ w (Value.vdict callKwargs) x hx with h | h
      · rcases mem_dictKeys_insert _ v
          (Value.vlist (callArgs.drop fArgs.length)) x h with h1 | h1
        · exact Or.inl (base x h1)
        · exact Or.inr (Or.inl (by rw [h1]))
      · exact Or.inr (Or.inr (by rw [h]))

theorem mem_dictKeys_no_varargs (callArgs : List Value) (callKwargs : Dict)
    (fArgs : List String) (fDefaults : List Value)
    (fVarargs fKwargs : Option String) (m : Dict) (x : String)
    (hm : get_arguments_no_varargs callArgs callKwargs fArgs fDefaults
      fVarargs fKwargs = some m)
    (hx : x ∈ dictKeys m) :
    x ∈ fArgs ∨ fVarargs = some x ∨ fKwargs = some x := by
  simp only [get_arguments_no_varargs] at hm
  obtain ⟨d1, h1⟩ := Option.isSome_iff_exists.mp
    (assignDefaulted_isSome callKwargs
      (List.zip ((fArgs.drop callArgs.length).reverse) fDefaults.reverse)
      (updateAll (varargsEmptyList fVarargs) (List.zip fArgs callArgs)))
  rw [h1] at hm
  dsimp only at hm
  obtain ⟨d2, h2⟩ := Option.isSome_iff_exists.mp
    (assignRequired_isSome callKwargs
      (pySlice fArgs callArgs.length (-(fDefaults.length : Int))) d1)
  rw [h2] at hm
  dsimp only at hm
  have initKeys : ∀ y : String,
      y ∈ dictKeys (varargsEmptyList fVarargs) → fVarargs = some y := by
    intro y hy
    cases fVarargs with
    | none => simp [varargsEmptyList, dictKeys] at hy
    | some v =>
      simp only [varargsEmptyList, dictKeys, List.map_cons, List.map_nil,
        List.mem_singleton] at hy
      rw [hy]
  have baseKeys : ∀ y : String,
      y ∈ dictKeys (updateAll (varargsEmptyList fVarargs)
        (List.zip fArgs callArgs)) →
      y ∈ fArgs ∨ fVarargs = some y := by
    intro y hy
    rcases mem_dictKeys_updateAll (List.zip fArgs callArgs) _ y hy with h | h
    · exact Or.inr (initKeys y h)
    · exact Or.inl (mem_fst_zip fArgs callArgs y h)
  have d1Keys : ∀ y : String, y ∈ dictKeys d1 →
      y ∈ fArgs ∨ fVarargs = some y := by
    intro y hy
    rcases mem_dictKeys_assignDefaulted callKwargs _ _ d1 y h1 hy with h | h
    · exact baseKeys y h
    · left
      have hy2 : y ∈ (fArgs.drop callArgs.length).reverse :=
        mem_fst_zip _ (fDefaults.reverse) y (by simpa using h)
      exact List.mem_of_mem_drop (List.mem_reverse.mp hy2)
  have d2Keys : ∀ y : String, y ∈ dictKeys d2 →
      y ∈ fArgs ∨ fVarargs = some y := by
    intro y hy
    rcases mem_dictKeys_assignRequired callKwargs _ _ d2 y h2 hy with h | h
    · exact d1Keys y h
    · left
      have hty : y ∈ fArgs.take (if -(fDefaults.length : Int) < 0 then
          ((fArgs.length : Int) + -(fDefaults.length : Int)).toNat
        else min (-(fDefaults.length : Int)).toNat fArgs.length) :=
        List.mem_of_mem_drop (by simpa [pySlice] using h)
      exact List.mem_of_mem_take hty
  cases fKwargs with
  | none =>
    rw [Option.some.injEq] at hm
    subst hm
    rcases d2Keys x hx with h | h
    · exact Or.inl h
    · exact Or.inr (Or.inl h)
  | some w =>
    rw [Option.some.injEq] at hm
    subst hm
    rcases mem_dictKeys_insert d2 w
      (Value.vdict (callKwargs.filter fun kv => !(fArgs.contains kv.1)))
      x hx with h | h
    · rcases d2Keys x h with h1 | h1
      · exact Or.inl h1
      · exact Or.inr (Or.inl h1)
    · exact Or.inr (Or.inr (by rw [h]))

end Reflection

/-! ## Master characterisation of the no-excess-positional branch -/

namespace Inspectcall

theorem no_extra_positional_spec (a : List Value) (k : Dict)
    (fArgs : List String) (fDefaults : List Value)
    (fVarargs fKwargs : Option String)
    (hnd : fArgs.Nodup)
    (hv : ∀ v ∈ fVarargs, v ∉ fArgs)
    (hw : ∀ w ∈ fKwargs, w ∉ fArgs)
    (hvw : ∀ v ∈ fVarargs, ∀ w ∈ fKwargs, v ≠ w) :
    ∃ m, get_arguments_no_extra_positional a k fArgs fDefaults fVarargs fKwargs
        = some m ∧
      (∀ (i : Nat) (name : String), fArgs.get? i = some name →
        dictLookup m name =
          resolveParam a k fDefaults
            ((fArgs.length : Int) - (fDefaults.length : Int)) i name) ∧
      (∀ v ∈ fVarargs, dictLookup m v = some (Value.vtuple [])) ∧
      (∀ w ∈ fKwargs, dictLookup m w =
        some (Value.vdict (k.filter fun kv => !(fArgs.contains kv.1)))) := by
  obtain ⟨res, hres⟩ := Option.isSome_iff_exists.mp
    (resolveParams_isSome a k fDefaults
      ((fArgs.length : Int) - (fDefaults.length : Int)) fArgs 0
      (varargsEmptyTuple fVarargs) (by push_cast; omega))
  have hparam : ∀ (i : Nat) (name : String), fArgs.get? i = some name →
      dictLookup res name =
        resolveParam a k fDefaults
          ((fArgs.length : Int) - (fDefaults.length : Int)) i name := by
    intro i name hname
    have := resolveParams_lookup a k fDefaults
      ((fArgs.length : Int) - (fDefaults.length : Int)) fArgs 0
      (varargsEmptyTuple fVarargs) res i name hres hnd hname
    simpa using this
  have hvar : ∀ v ∈ fVarargs, dictLookup res v = some (Value.vtuple []) := by
    intro v hvo
    have hvnot : v ∉ fArgs := hv v hvo
    rw [resolveParams_lookup_notMem a k fDefaults
      ((fArgs.length : Int) - (fDefaults.length : Int)) v fArgs 0
      (varargsEmptyTuple fVarargs) res hres hvnot]
    cases fVarargs with
    | none => simp at hvo
    | some v0 =>
      have hvv : v0 = v := by simpa using hvo
      subst hvv
      simp [varargsEmptyTuple, dictLookup]
  simp only [get_arguments_no_extra_positional]
  rw [hres]
  dsimp only
  cases fKwargs with
  | none =>
    refine ⟨res, rfl, hparam, hvar, ?_⟩
    intro w hw'
    simp at hw'
  | some w =>
    have hwnot : w ∉ fArgs := hw w (by simp)
    refine ⟨_, rfl, ?_, ?_, ?_⟩
    · intro i name hname
      have hne : w ≠ name := fun he =>
        hwnot (he ▸ List.get?_mem hname)
      rw [dictLookup_insert_ne res w name _ hne]
      exact hparam i name hname
    · intro v hvo
      have hne : w ≠ v := fun he => (hvw v hvo w (by simp) he.symm)
      rw [dictLookup_insert_ne res w v _ hne]
      exact hvar v hvo
    · intro w' hw'
      have hww : w = w' := by simpa using hw'
      subst hww
      exact dictLookup_insert_self res w _

theorem no_extra_positional_kwslot (a : List Value) (k : Dict)
    (fArgs : List String) (fDefaults : List Value) (fVarargs : Option String)
    (w : String) :
    ∃ m, get_arguments_no_extra_positional a k fArgs fDefaults fVarargs (some w)
        = some m ∧
      dictLookup m w =
        some (Value.vdict (k.filter fun kv => !(fArgs.contains kv.1))) := by
  obtain ⟨res, hres⟩ := Option.isSome_iff_exists.mp
    (resolveParams_isSome a k fDefaults
      ((fArgs.length : Int) - (fDefaults.length : Int)) fArgs 0
      (varargsEmptyTuple fVarargs) (by push_cast; omega))
  simp only [get_arguments_no_extra_positional]
  rw [hres]
  dsimp only
  exact ⟨_, rfl, dictLookup_insert_self res w _⟩

end Inspectcall

namespace Reflection

theorem no_varargs_kwslot (a : List Value) (k : Dict)
    (fArgs : List String) (fDefaults : List Value) (fVarargs : Option String)
    (w : String) :
    ∃ m, get_arguments_no_varargs a k fArgs fDefaults fVarargs (some w)
        = some m ∧
      dictLookup m w =
        some (Value.vdict (k.filter fun kv => !(fArgs.contains kv.1))) := by
  simp only [get_arguments_no_varargs]
  obtain ⟨d1, h1⟩ := Option.isSome_iff_exists.mp
    (assignDefaulted_isSome k
      (List.zip ((fArgs.drop a.length).reverse) fDefaults.reverse)
      (updateAll (varargsEmptyList fVarargs) (List.zip fArgs a)))
  rw [h1]
  dsimp only
  obtain ⟨d2, h2⟩ := Option.isSome_iff_exists.mp
    (assignRequired_isSome k
      (pySlice fArgs a.length (-(fDefaults.length : Int))) d1)
  rw [h2]
  dsimp only
  exact ⟨_, rfl, dictLookup_insert_self d2 w _⟩

end Reflection

/-! ## The missing-argument sentinel -/

theorem missingArgument_inj (n m : String)
    (h : missingArgument n = missingArgument m) : n = m := by
  simp only [missingArgument, Value.str.injEq] at h
  have hd : ("__missing_argument_" ++ n ++ "__").data =
      ("__missing_argument_" ++ m ++ "__").data := by rw [h]
  simp only [String.data_append] at hd
  have h1 : "__missing_argument_".data ++ n.data =
      "__missing_argument_".data ++ m.data :=
    (List.append_left_inj _).mp hd
  have h2 : n.data = m.data := (List.append_right_inj _).mp h1
  exact String.ext h2

/-! ## The claims -/

/-- C1 (confirmed): for every signature (any parameter list, any defaults
including none, variadic slots declared or not) and every call, the resolver
completes and returns a mapping without raising: `callargs_from_argspec`
(which normalises a `None` defaults field) and the directly-invoked
`get_arguments_no_varargs` always return `some`, i.e. no embedded partial
operation (list indexing, dict subscription) is ever reached out of
bounds. -/
theorem claim_C1_never_raises :
    (∀ (spec : ArgSpec) (a : List Value) (k : Dict),
      (Inspectcall.callargs_from_argspec spec a k).isSome = true) ∧
    (∀ (a : List Value) (k : Dict) (fArgs : List String)
      (fDefaults : List Value) (fVarargs fKwargs : Option String),
      (Reflection.get_arguments_no_varargs a k fArgs fDefaults fVarargs
        fKwargs).isSome = true) :=
  ⟨Inspectcall.callargs_isSome, Reflection.no_varargs_isSome⟩

/-- C2 (code bug in `tdxutil/reflection.py`): in the no-excess-positional
case, `inspectcall`'s resolver gives every declared parameter exactly the
claimed priority cascade (`resolveParam`: positional, then keyword, then
right-aligned default, then missing sentinel) and binds a declared
variadic-positional slot to the empty tuple.  `reflection.py`'s
`get_arguments_no_varargs`, however, iterates required parameters over the
slice `f_args[n_pos_arg:-len(f_defaults)]`, which is `f_args[n_pos_arg:0]`
(empty) whenever there are no defaults: on signature `(a, b)` with no
defaults, call `([], {b: 5})`, it returns the empty mapping instead of
`{a: <missing-a>, b: 5}`. -/
theorem claim_C2_priority :
    (∀ (a : List Value) (k : Dict) (fArgs : List String)
       (fDefaults : List Value) (fVarargs fKwargs : Option String)
       (i : Nat) (name : String),
      a.length ≤ fArgs.length →
      fArgs.Nodup →
      (∀ v ∈ fVarargs, v ∉ fArgs) →
      (∀ w ∈ fKwargs, w ∉ fArgs) →
      (∀ v ∈ fVarargs, ∀ w ∈ fKwargs, v ≠ w) →
      fArgs.get? i = some name →
      ∃ m, Inspectcall.get_arguments_no_extra_positional a k fArgs fDefaults
          fVarargs fKwargs = some m ∧
        dictLookup m name =
          Inspectcall.resolveParam a k fDefaults
            ((fArgs.length : Int) - (fDefaults.length : Int)) i name ∧
        (∀ v ∈ fVarargs, dictLookup m v = some (Value.vtuple []))) ∧
    Reflection.get_arguments_no_varargs [] [("b", Value.atom 5)] ["a", "b"] []
      none none = some [] := by
  constructor
  · intro a k fArgs fDefaults fVarargs fKwargs i name _ hnd hv hw hvw hname
    obtain ⟨m, hm, hparam, hvar, _⟩ :=
      Inspectcall.no_extra_positional_spec a k fArgs fDefaults fVarargs fKwargs
        hnd hv hw hvw
    exact ⟨m, hm, hparam i name hname, hvar⟩
  · rfl

/-- Witness for C2's theorem at signature `(a, b)`, no defaults, call
`([], {b: 5})`: parameter `a` resolves to the missing-argument sentinel. -/
theorem claim_C2_witness :
    ∃ m, Inspectcall.get_arguments_no_extra_positional [] [("b", Value.atom 5)]
        ["a", "b"] [] none none = some m ∧
      dictLookup m "a" = some (missingArgument "a") ∧
      (∀ v ∈ (none : Option String), dictLookup m v = some (Value.vtuple [])) :=
  claim_C2_priority.1 [] [("b", Value.atom 5)] ["a", "b"] [] none none 0 "a"
    (by decide) (by decide) (by simp) (by simp) (by simp) rfl

/-- C3 (confirmed): with more positional arguments than declared parameters,
both implementations return exactly the zip of the declared parameters with
the leading positional values, then (iff declared) the variadic-positional
slot bound to the leftover tail (a tuple in `inspectcall`, a list in
`reflection`), then (iff declared) the variadic-keyword slot bound to the
entire keyword mapping verbatim, with no filtering.  Keyword arguments and
defaults are never consulted for declared parameters, and an undeclared
tail appears nowhere. -/
theorem claim_C3_excess_positional (spec : ArgSpec) (a : List Value) (k : Dict)
    (hlen : spec.args.length < a.length)
    (hnd : spec.args.Nodup)
    (hv : ∀ v ∈ spec.varargs, v ∉ spec.args)
    (hw : ∀ w ∈ spec.keywords, w ∉ spec.args)
    (hvw : ∀ v ∈ spec.varargs, ∀ w ∈ spec.keywords, v ≠ w) :
    Inspectcall.callargs_from_argspec spec a k =
      some (List.zip spec.args a
        ++ (spec.varargs.map fun v =>
            (v, Value.vtuple (a.drop spec.args.length))).toList
        ++ (spec.keywords.map fun w => (w, Value.vdict k)).toList) ∧
    Reflection.get_arguments spec a k =
      some (List.zip spec.args a
        ++ (spec.varargs.map fun v =>
            (v, Value.vlist (a.drop spec.args.length))).toList
        ++ (spec.keywords.map fun w => (w, Value.vdict k)).toList) := by
  constructor
  · simp only [Inspectcall.callargs_from_argspec, Inspectcall.get_signature]
    rw [if_pos hlen,
      Inspectcall.extra_positional_eq a k spec.args spec.varargs spec.keywords
        hnd hv hw hvw (le_of_lt hlen)]
  · simp only [Reflection.get_arguments]
    rw [if_pos hlen,
      Reflection.with_varargs_eq a k spec.args spec.varargs spec.keywords
        hnd hv hw hvw (le_of_lt hlen)]

/-- Witness for C3's theorem at signature `(x, *v, **kw)`, call
`([1, 2], {q: 3})`. -/
theorem claim_C3_witness :
    Inspectcall.callargs_from_argspec ⟨["x"], some "v", some "kw", none⟩
      [Value.atom 1, Value.atom 2] [("q", Value.atom 3)] =
      some [("x", Value.atom 1), ("v", Value.vtuple [Value.atom 2]),
        ("kw", Value.vdict [("q", Value.atom 3)])] ∧
    Reflection.get_arguments ⟨["x"], some "v", some "kw", none⟩
      [Value.atom 1, Value.atom 2] [("q", Value.atom 3)] =
      some [("x", Value.atom 1), ("v", Value.vlist [Value.atom 2]),
        ("kw", Value.vdict [("q", Value.atom 3)])] :=
  claim_C3_excess_positional ⟨["x"], some "v", some "kw", none⟩
    [Value.atom 1, Value.atom 2] [("q", Value.atom 3)]
    (by decide) (by decide)
    (by intro v hv; simp at hv; subst hv; decide)
    (by intro w hw; simp at hw; subst hw; decide)
    (by intro v hv w hw; simp at hv hw; subst hv; subst hw; decide)

/-- C4 (confirmed): in the no-excess-positional case, a declared
variadic-keyword slot is bound to exactly `keyword_args` filtered to the
keys that are not declared parameter names, keeping each surviving entry's
value, in both implementations (the `**kwargs` assignment is the last
statement of both functions). -/
theorem claim_C4_varkw_filter (spec : ArgSpec) (a : List Value) (k : Dict)
    (w : String)
    (hlen : a.length ≤ spec.args.length)
    (hkw : spec.keywords = some w) :
    (∃ m, Inspectcall.callargs_from_argspec spec a k = some m ∧
      dictLookup m w =
        some (Value.vdict (k.filter fun kv => !(spec.args.contains kv.1)))) ∧
    (∀ (fDefaults : List Value) (fVarargs : Option String),
      ∃ m, Reflection.get_arguments_no_varargs a k spec.args fDefaults fVarargs
          (some w) = some m ∧
        dictLookup m w =
          some (Value.vdict (k.filter fun kv => !(spec.args.contains kv.1)))) := by
  constructor
  · simp only [Inspectcall.callargs_from_argspec, Inspectcall.get_signature, hkw]
    rw [if_neg (not_lt.mpr hlen)]
    exact Inspectcall.no_extra_positional_kwslot a k spec.args _ spec.varargs w
  · intro fDefaults fVarargs
    exact Reflection.no_varargs_kwslot a k spec.args fDefaults fVarargs w

/-- Witness for C4's theorem at signature `(x, **kw)`, call
`([], {x: 1, z: 2})`: the slot keeps only `z`. -/
theorem claim_C4_witness :
    (∃ m, Inspectcall.callargs_from_argspec ⟨["x"], none, some "kw", none⟩ []
        [("x", Value.atom 1), ("z", Value.atom 2)] = some m ∧
      dictLookup m "kw" = some (Value.vdict [("z", Value.atom 2)])) ∧
    (∃ m, Reflection.get_arguments_no_varargs []
        [("x", Value.atom 1), ("z", Value.atom 2)] ["x"] [Value.atom 9] none
        (some "kw") = some m ∧
      dictLookup m "kw" = some (Value.vdict [("z", Value.atom 2)])) := by
  have h := claim_C4_varkw_filter ⟨["x"], none, some "kw", none⟩ []
    [("x", Value.atom 1), ("z", Value.atom 2)] "kw" (by decide) rfl
  exact ⟨h.1, h.2 [Value.atom 9] none⟩

/-- C5 (code bug in `tdxutil/reflection.py`): the output must contain an
entry for every declared parameter.  `inspectcall` does: on signature
`(x, y)` with an empty defaults sequence and call `([1], {})` it returns
`{x: 1, y: <missing-y>}`.  `reflection.get_arguments` on the same inputs
returns `{x: 1}`, silently omitting `y` (the empty-defaults slice bug),
violating the coverage guarantee its own docstring and tests promise. -/
theorem claim_C5_coverage :
    Reflection.get_arguments ⟨["x", "y"], none, none, some []⟩ [Value.atom 1]
      [] = some [("x", Value.atom 1)] ∧
    Inspectcall.callargs_from_argspec ⟨["x", "y"], none, none, some []⟩
      [Value.atom 1] [] =
      some [("x", Value.atom 1), ("y", missingArgument "y")] :=
  ⟨rfl, rfl⟩

/-- C6 counterexample: the claim says a keyword entry for a parameter that
was also supplied positionally "appears nowhere in the output".  On
signature `(x, **kw)` with call `([1, 2], {x: 99})` the call has excess
positional arguments, so the excess-positional branch passes `keyword_args`
verbatim into the variadic-keyword slot: the output is
`{x: 1, kw: {x: 99}}`, and the dropped keyword value `99` does appear in
the output, inside `kw`. -/
theorem claim_C6_counterexample :
    Inspectcall.callargs_from_argspec ⟨["x"], none, some "kw", none⟩
      [Value.atom 1, Value.atom 2] [("x", Value.atom 99)] =
      some [("x", Value.atom 1), ("kw", Value.vdict [("x", Value.atom 99)])] :=
  rfl

/-- C6 (amended): when a parameter is supplied both positionally and by
keyword, its resolved value is always the positional one; and in the
no-excess-positional case (`len(positional_args) <= len(positional_params)`)
the keyword entry is dropped silently — in particular a declared
variadic-keyword slot's filtered mapping does not contain the parameter's
name.  (In the excess-positional case the keyword value survives verbatim
inside the variadic-keyword slot when one is declared.) -/
theorem claim_C6_positional_wins (spec : ArgSpec) (a : List Value) (k : Dict)
    (i : Nat) (name : String) (val : Value)
    (hnd : spec.args.Nodup)
    (hv : ∀ v ∈ spec.varargs, v ∉ spec.args)
    (hw : ∀ w ∈ spec.keywords, w ∉ spec.args)
    (hvw : ∀ v ∈ spec.varargs, ∀ w ∈ spec.keywords, v ≠ w)
    (hname : spec.args.get? i = some name)
    (hpos : a.get? i = some val)
    (_hkw : dictContains k name = true) :
    ∃ m, Inspectcall.callargs_from_argspec spec a k = some m ∧
      dictLookup m name = some val ∧
      (a.length ≤ spec.args.length →
        ∀ w ∈ spec.keywords, ∃ fd, dictLookup m w = some (Value.vdict fd) ∧
          dictLookup fd name = none) := by
  have hmem : name ∈ spec.args := List.get?_mem hname
  have hilt : i < a.length := by
    obtain ⟨hlt, _⟩ := List.get?_eq_some.mp hpos
    exact hlt
  by_cases hbr : spec.args.length < a.length
  · refine ⟨Inspectcall.get_arguments_extra_positional a k spec.args
      spec.varargs spec.keywords, ?_, ?_, ?_⟩
    · simp only [Inspectcall.callargs_from_argspec, Inspectcall.get_signature]
      rw [if_pos hbr]
    · have hzip : dictLookup (List.zip spec.args a) name = some val := by
        rw [dictLookup_zip spec.args a i name hnd hname hilt]
        exact hpos
      rw [Inspectcall.extra_positional_eq a k spec.args spec.varargs
        spec.keywords hnd hv hw hvw (le_of_lt hbr), List.append_assoc,
        dictLookup_append_of_isSome _ _ name (by rw [hzip]; rfl), hzip]
    · intro hle
      exact absurd hbr (not_lt.mpr hle)
  · obtain ⟨m, hm, hparam, hvar, hkwslot⟩ :=
      Inspectcall.no_extra_positional_spec a k spec.args
        (match spec.defaults with | none => [] | some d => d)
        spec.varargs spec.keywords hnd hv hw hvw
    refine ⟨m, ?_, ?_, ?_⟩
    · simp only [Inspectcall.callargs_from_argspec, Inspectcall.get_signature]
      rw [if_neg hbr]
      exact hm
    · rw [hparam i name hname]
      simp only [Inspectcall.resolveParam, if_pos hilt]
      exact hpos
    · intro _ w hwo
      refine ⟨k.filter fun kv => !(spec.args.contains kv.1), hkwslot w hwo, ?_⟩
      exact dictLookup_filter_not k spec.args name (by simpa using hmem)

/-- Witness for the amended C6 at signature `(x, **kw)`, call
`([7], {x: 9})`: `x` resolves to the positional `7` and the `kw` slot drops
the keyword entry for `x`. -/
theorem claim_C6_witness :
    ∃ m, Inspectcall.callargs_from_argspec ⟨["x"], none, some "kw", none⟩
        [Value.atom 7] [("x", Value.atom 9)] = some m ∧
      dictLookup m "x" = some (Value.atom 7) ∧
      ([Value.atom 7].length ≤ (["x"] : List String).length →
        ∀ w ∈ (some "kw" : Option String),
          ∃ fd, dictLookup m w = some (Value.vdict fd) ∧
            dictLookup fd "x" = none) :=
  claim_C6_positional_wins ⟨["x"], none, some "kw", none⟩ [Value.atom 7]
    [("x", Value.atom 9)] 0 "x" (Value.atom 7)
    (by decide)
    (by intro v hv; simp at hv)
    (by intro w hw; simp at hw; subst hw; decide)
    (by intro v hv w hw; simp at hv)
    rfl rfl rfl

/-- C7 counterexample: the sentinel is claimed to be a distinct tagged
variant distinguishable from every legitimate argument value.  It is not:
it is the plain string produced by `'__missing_argument_{}__'.format(name)`,
so the resolution of `(y)` with `y` missing is indistinguishable from the
resolution of `(y)` with `y` legitimately bound to the string
`"__missing_argument_y__"` — the two outputs are equal. -/
theorem claim_C7_counterexample :
    Inspectcall.callargs_from_argspec ⟨["y"], none, none, none⟩ [] [] =
      Inspectcall.callargs_from_argspec ⟨["y"], none, none, none⟩ []
        [("y", Value.str "__missing_argument_y__")] :=
  rfl

/-- C7 (amended): the sentinel is the plain string
`__missing_argument_<name>__` — it deterministically encodes, and uniquely
determines, the missing parameter's name, but it is an ordinary string
value, not a distinct tagged variant, and it coincides with a legitimate
string argument of the same content. -/
theorem claim_C7_sentinel :
    (∀ name : String, missingArgument name =
      Value.str ("__missing_argument_" ++ name ++ "__")) ∧
    (∀ n m : String, missingArgument n = missingArgument m → n = m) :=
  ⟨fun _ => rfl, missingArgument_inj⟩

/-- Witness for the amended C7 at `name := "y"`. -/
theorem claim_C7_witness :
    missingArgument "y" =
      Value.str ("__missing_argument_" ++ "y" ++ "__") ∧ ("y" : String) = "y" :=
  ⟨claim_C7_sentinel.1 "y", claim_C7_sentinel.2 "y" "y" rfl⟩

/-- C8 (code bug in `tdxutil/reflection.py`): on signature `(x, y, z)` with
no defaults and call `([1], {z: 3})`, `inspectcall` returns exactly
`{x: 1, y: <missing-y sentinel>, z: 3}` as the claim (and the repository's
own test `test_get_call_arguments_missing_args`) states, but
`reflection.get_arguments_no_varargs` returns `{x: 1}`, dropping both `y`
and `z` because `f_args[1:-0]` is the empty slice. -/
theorem claim_C8_example :
    Inspectcall.callargs_from_argspec ⟨["x", "y", "z"], none, none, none⟩
      [Value.atom 1] [("z", Value.atom 3)] =
      some [("x", Value.atom 1), ("y", missingArgument "y"),
        ("z", Value.atom 3)] ∧
    Reflection.get_arguments_no_varargs [Value.atom 1] [("z", Value.atom 3)]
      ["x", "y", "z"] [] none none = some [("x", Value.atom 1)] :=
  ⟨rfl, rfl⟩

/-- C9 (confirmed): both resolvers are pure functions of their inputs —
equal signatures and equal calls give equal results, with no hidden
state. -/
theorem claim_C9_deterministic (spec₁ spec₂ : ArgSpec) (a₁ a₂ : List Value)
    (k₁ k₂ : Dict) (hs : spec₁ = spec₂) (ha : a₁ = a₂) (hk : k₁ = k₂) :
    Inspectcall.callargs_from_argspec spec₁ a₁ k₁ =
      Inspectcall.callargs_from_argspec spec₂ a₂ k₂ ∧
    Reflection.get_arguments spec₁ a₁ k₁ =
      Reflection.get_arguments spec₂ a₂ k₂ := by
  subst hs
  subst ha
  subst hk
  exact ⟨rfl, rfl⟩

/-- Witness for C9 at a concrete signature and call. -/
theorem claim_C9_witness :
    Inspectcall.callargs_from_argspec ⟨["x"], none, none, none⟩ [Value.atom 1]
        [] =
      Inspectcall.callargs_from_argspec ⟨["x"], none, none, none⟩ [Value.atom 1]
        [] ∧
    Reflection.get_arguments ⟨["x"], none, none, none⟩ [Value.atom 1] [] =
      Reflection.get_arguments ⟨["x"], none, none, none⟩ [Value.atom 1] [] :=
  claim_C9_deterministic ⟨["x"], none, none, none⟩ ⟨["x"], none, none, none⟩
    [Value.atom 1] [Value.atom 1] [] [] rfl rfl rfl

/-- C10 (confirmed): every key of a returned mapping is either a declared
parameter name, the declared variadic-positional name, or the declared
variadic-keyword name — excess positional values with no variadic slot and
unknown keywords with no variadic-keyword slot never surface as extra
top-level keys, in either implementation. -/
theorem claim_C10_key_subset :
    (∀ (spec : ArgSpec) (a : List Value) (k : Dict) (m : Dict),
      Inspectcall.callargs_from_argspec spec a k = some m →
      ∀ x ∈ dictKeys m,
        x ∈ spec.args ∨ spec.varargs = some x ∨ spec.keywords = some x) ∧
    (∀ (a : List Value) (k : Dict) (fArgs : List String)
       (fVarargs fKwargs : Option String),
      ∀ x ∈ dictKeys (Reflection.get_arguments_with_varargs a k fArgs fVarargs
        fKwargs),
        x ∈ fArgs ∨ fVarargs = some x ∨ fKwargs = some x) ∧
    (∀ (a : List Value) (k : Dict) (fArgs : List String)
       (fDefaults : List Value) (fVarargs fKwargs : Option String) (m : Dict),
      Reflection.get_arguments_no_varargs a k fArgs fDefaults fVarargs fKwargs
        = some m →
      ∀ x ∈ dictKeys m, x ∈ fArgs ∨ fVarargs = some x ∨ fKwargs = some x) := by
  refine ⟨?_, ?_, ?_⟩
  · intro spec a k m hm x hx
    simp only [Inspectcall.callargs_from_argspec, Inspectcall.get_signature] at hm
    by_cases hbr : spec.args.length < a.length
    · rw [if_pos hbr, Option.some.injEq] at hm
      subst hm
      exact Inspectcall.mem_dictKeys_extra_positional a k spec.args spec.varargs
        spec.keywords x hx
    · rw [if_neg hbr] at hm
      exact Inspectcall.mem_dictKeys_no_extra_positional a k spec.args _
        spec.varargs spec.keywords m x hm hx
  · intro a k fArgs fVarargs fKwargs x hx
    exact Reflection.mem_dictKeys_with_varargs a k fArgs fVarargs fKwargs x hx
  · intro a k fArgs fDefaults fVarargs fKwargs m hm x hx
    exact Reflection.mem_dictKeys_no_varargs a k fArgs fDefaults fVarargs
      fKwargs m x hm hx

/-- Witness for C10 at signature `(x)`, call `([1, 2], {z: 3})` (excess
positional and unknown keyword, no variadic slots): the only key is `x`. -/
theorem claim_C10_witness :
    ("x" ∈ (["x"] : List String) ∨ (none : Option String) = some "x" ∨
      (none : Option String) = some "x") ∧
    ("x" ∈ (["x"] : List String) ∨ (none : Option String) = some "x" ∨
      (none : Option String) = some "x") :=
  ⟨claim_C10_key_subset.1 ⟨["x"], none, none, none⟩
      [Value.atom 1, Value.atom 2] [("z", Value.atom 3)]
      [("x", Value.atom 1)] rfl "x" (by simp [dictKeys]),
    claim_C10_key_subset.2.2 [Value.atom 1] [("z", Value.atom 3)] ["x"] []
      none none [("x", Value.atom 1)] rfl "x" (by simp [dictKeys])⟩
